import Mathlib

/-!
Shallow embedding of the mosaic-generation engine of this repository:
`animated_mosaic.py` (region sampler, grid builder, replacement scheduler,
canvas mutator), `random_tiles.py` (static consistent mosaic) and
`mittag_video_part_2.py` (beat-synchronized single-pool generator).

Machine reals (Python floats) are modelled as exact rationals; Python's
`int(...)` truncation is `ratInt`; `random.randint`, `random.choice` and
`random.random` draws are explicit inputs (streams of draw records), so the
embedded engine is a pure function of its draw streams.  The potentially
unbounded retry recursion in `get_random_tile` is modelled with explicit
fuel: `none` means the recursion was still running after `fuel` attempts.
-/

/-- Python `int(q)`: truncation toward zero on an exact rational. -/
def ratInt (q : ℚ) : ℤ := if 0 ≤ q then ⌊q⌋ else ⌈q⌉

/-- a BGR pixel value. -/
abbrev Pixel : Type := ℕ × ℕ × ℕ

/-- a decoded source image: height, width, and pixel contents. -/
structure Image where
  h : ℕ
  w : ℕ
  pix : ℕ → ℕ → Pixel

/-- a tile: a pixel block with its own height and width. -/
structure Tile where
  height : ℕ
  width : ℕ
  pix : ℕ → ℕ → Pixel

/-- the mutable output canvas, as a total pixel map. -/
abbrev Canvas : Type := ℕ → ℕ → Pixel

/-- numpy slice `img[y:y+th, x:x+tw]`: clamped at the image border, so the
resulting shape is `min th (h - y)` by `min tw (w - x)`. -/
def crop (img : Image) (y x th tw : ℕ) : Tile :=
  ⟨min th (img.h - y), min tw (img.w - x), fun i j => img.pix (y + i) (x + j)⟩

/-- `np.zeros((th, tw, 3))`: the all-black tile returned for an empty pool. -/
def blackTile (tw th : ℕ) : Tile :=
  ⟨th, tw, fun _ _ => (0, 0, 0)⟩

/-- `int(source_h * HORIZON_RATIO)`: the horizon row of a source image
(`animated_mosaic.py` line 50, `random_tiles.py` line 52). -/
def source_horizon_y (h : ℕ) (ratio : ℚ) : ℤ := ratInt ((h : ℚ) * ratio)

/-- the vertical crop-origin range of `get_random_tile`
(`animated_mosaic.py` lines 52-56): sky `[0, max 0 (shy - th)]`,
field `[min shy (h - th), h - th]`. -/
def sample_range (img : Image) (ratio : ℚ) (th : ℕ) (isSky : Bool) : ℤ × ℤ :=
  if isSky then (0, max 0 (source_horizon_y img.h ratio - (th : ℤ)))
  else (min (source_horizon_y img.h ratio) ((img.h : ℤ) - (th : ℤ)),
        (img.h : ℤ) - (th : ℤ))

/-- one attempt's random draws inside `get_random_tile`: the `random.choice`
index draw, and the raw values behind the two `random.randint` calls. -/
structure Draw where
  pick : ℕ
  ux : ℕ
  uy : ℕ

/-- `get_random_tile(source_images, is_sky_tile)` of `animated_mosaic.py`
(lines 41-64), with the retry recursion of line 60 made fuel-indexed:
`none` means the recursion had not returned after `fuel` attempts.  `draws i`
holds the random draws consumed by attempt `i`. -/
def get_random_tile (tw th : ℕ) (ratio : ℚ) (pool : List Image) (isSky : Bool)
    (draws : ℕ → Draw) : ℕ → ℕ → Option Tile
  | _, 0 => none
  | i, fuel + 1 =>
    match pool with
    | [] => some (blackTile tw th)
    | a :: rest =>
      let d := draws i
      let img := (a :: rest).get ⟨d.pick % (a :: rest).length, Nat.mod_lt _ (Nat.succ_pos _)⟩
      let lo := (sample_range img ratio th isSky).1
      let hi := (sample_range img ratio th isSky).2
      if hi ≤ lo then get_random_tile tw th ratio (a :: rest) isSky draws (i + 1) fuel
      else
        let rx := d.ux % (img.w - tw + 1)
        let ry := (lo + (d.uy : ℤ) % (hi - lo + 1)).toNat
        some (crop img ry rx th tw)

/-- `current_rate` of the replacement scheduler (`animated_mosaic.py`
lines 113-114, `mittag_video_part_2.py` lines 120-121). -/
def current_rate (startR endR progress : ℚ) : ℚ :=
  startR + (endR - startR) * progress

/-- `tiles_to_replace` (`animated_mosaic.py` lines 117-120): stochastic
rounding of the rate, `u` being the `random.random()` draw. -/
def tiles_to_replace (r u : ℚ) : ℤ :=
  ratInt r + (if u < r - (ratInt r : ℚ) then 1 else 0)

/-- expected value of `tiles_to_replace r u` over a uniform `u` in `[0,1)`:
the fractional part is the probability of the `+1` branch. -/
def expected_replacements (r : ℚ) : ℚ :=
  (r - (ratInt r : ℚ)) * ((ratInt r : ℚ) + 1) + (1 - (r - (ratInt r : ℚ))) * (ratInt r : ℚ)

/-- Python `range(0, stop, step)` for a positive step: the multiples of
`step` below `stop`. -/
def pyRange (stop step : ℕ) : List ℕ :=
  (List.range ((stop + step - 1) / step)).map (· * step)

/-- `int(output_height * HORIZON_RATIO)`: the canvas horizon row
(`animated_mosaic.py` line 85). -/
def output_horizon_y (hgt : ℕ) (ratio : ℚ) : ℤ := ratInt ((hgt : ℚ) * ratio)

/-- a slot descriptor of the animated mosaic: grid origin and zone tag
(`animated_mosaic.py` line 98). -/
structure Slot where
  x : ℕ
  y : ℕ
  is_sky : Bool
deriving DecidableEq

/-- the slot list built by the grid loop of `create_animated_mosaic`
(`animated_mosaic.py` lines 89-98): origins stepped by the tile size, a slot
kept only when its extent fits the canvas, zone `sky` iff
`y + tile_height < output_horizon_y`. -/
def tile_positions (W H tw th : ℕ) (ratio : ℚ) : List Slot :=
  (pyRange H th).flatMap fun y =>
    (pyRange W tw).flatMap fun x =>
      if y + th ≤ H ∧ x + tw ≤ W then
        [⟨x, y, decide (((y : ℤ) + (th : ℤ)) < output_horizon_y H ratio)⟩]
      else []

/-- the crop-origin range computation of `create_consistent_mosaic`
(`random_tiles.py` lines 52-70): the sky / field / crossing-horizon branches
(lines 55-65) followed by the validity fallback of lines 68-70, which resets
an empty or negative range to `[0, source_h - tile_height]`. -/
def consistent_sample_range (h : ℕ) (ratio : ℚ) (th : ℕ) (y : ℕ) (outHz : ℤ) : ℤ × ℤ :=
  let shy := source_horizon_y h ratio
  let p : ℤ × ℤ :=
    if (y : ℤ) + (th : ℤ) < outHz then (0, shy - (th : ℤ))
    else if (y : ℤ) > outHz then (shy, (h : ℤ) - (th : ℤ))
    else
      (shy - ratInt ((th : ℚ) * ((((outHz : ℤ) : ℚ) - (y : ℚ)) / (th : ℚ))),
       shy - ratInt ((th : ℚ) * ((((outHz : ℤ) : ℚ) - (y : ℚ)) / (th : ℚ))))
  if p.2 ≤ p.1 ∨ p.1 < 0 ∨ p.2 < 0 then (0, (h : ℤ) - (th : ℤ)) else p

/-- `random.randint(lo, hi)` (inclusive bounds), with the raw draw `u` made
explicit. -/
def randint_model (lo hi : ℤ) (u : ℕ) : ℤ := lo + (u : ℤ) % (hi - lo + 1)

/-- the in-place write `output_image[y:y+th, x:x+tw] = tile`
(`animated_mosaic.py` lines 97 and 140). -/
def writeTile (c : Canvas) (x y : ℕ) (t : Tile) : Canvas :=
  fun r cc =>
    if y ≤ r ∧ r < y + t.height ∧ x ≤ cc ∧ cc < x + t.width then
      t.pix (r - y) (cc - x)
    else c r cc

/-- random draws consumed by one replacement iteration
(`animated_mosaic.py` lines 123-140): the slot choice, the pool-bias
`random.random()` draw, and the sampler's per-attempt draws. -/
structure StepDraw where
  slotPick : ℕ
  poolU : ℚ
  tileDraws : ℕ → Draw

/-- the replacement loop of one time step (`animated_mosaic.py` lines
123-140): `count` times, skip if the slot list is empty, else choose a slot
uniformly, choose pool B with probability `bias` (the progress) else pool A,
sample a fresh tile for the slot's zone and write it.  `none` propagates a
sampler that was still retrying after its fuel. -/
def apply_step (fuel tw th : ℕ) (ratio bias : ℚ) (poolA poolB : List Image)
    (slots : List Slot) (draws : ℕ → StepDraw) : ℕ → Canvas → Option Canvas
  | 0, canvas => some canvas
  | n + 1, canvas =>
    if hs : slots = [] then
      apply_step fuel tw th ratio bias poolA poolB slots draws n canvas
    else
      let d := draws n
      let s := slots.get ⟨d.slotPick % slots.length, Nat.mod_lt _ (List.length_pos.mpr hs)⟩
      let pool := if d.poolU < bias then poolB else poolA
      match get_random_tile tw th ratio pool s.is_sky d.tileDraws 0 fuel with
      | none => none
      | some t =>
        apply_step fuel tw th ratio bias poolA poolB slots draws n
          (writeTile canvas s.x s.y t)

/-- random draws consumed by one video frame (`animated_mosaic.py` lines
108-144): the fractional-count `random.random()` draw and the per-iteration
step draws. -/
structure FrameDraw where
  countU : ℚ
  stepDraws : ℕ → StepDraw

/-- the frame loop of `create_animated_mosaic` (`animated_mosaic.py` lines
107-144): at frame `t`, progress is `t / totalFrames`, the replacement count
is the stochastic rounding of the interpolated rate, and the pool bias equals
the progress. -/
def run_frames (fuel tw th totalFrames : ℕ) (ratio startR endR : ℚ)
    (poolA poolB : List Image) (slots : List Slot) (draws : ℕ → FrameDraw)
    (init : Canvas) : ℕ → Option Canvas
  | 0 => some init
  | t + 1 =>
    match run_frames fuel tw th totalFrames ratio startR endR poolA poolB slots draws
        init t with
    | none => none
    | some c =>
      apply_step fuel tw th ratio ((t : ℚ) / (totalFrames : ℚ)) poolA poolB slots
        (draws t).stepDraws
        ((tiles_to_replace
            (current_rate startR endR ((t : ℚ) / (totalFrames : ℚ)))
            (draws t).countU).toNat)
        c

/-- the initial-grid fill of `create_animated_mosaic` (`animated_mosaic.py`
lines 88-98): every slot receives a tile sampled from pool A for its zone. -/
def build_initial (fuel tw th : ℕ) (ratio : ℚ) (pool : List Image)
    (draws : ℕ → ℕ → Draw) : List Slot → ℕ → Canvas → Option Canvas
  | [], _, c => some c
  | s :: rest, i, c =>
    match get_random_tile tw th ratio pool s.is_sky (draws i) 0 fuel with
    | none => none
    | some t =>
      build_initial fuel tw th ratio pool draws rest (i + 1) (writeTile c s.x s.y t)

/-- `np.zeros(...)`: the initial all-black canvas. -/
def black_canvas : Canvas := fun _ _ => (0, 0, 0)

/-- a full engine run (`animated_mosaic.py` lines 84-144): build the grid and
initial canvas from pool A, then run the frame loop; the result is the canvas
after time step `t`.  All randomness is the explicit draw streams. -/
def run_mosaic (fuel tw th totalFrames W H : ℕ) (ratio startR endR : ℚ)
    (poolA poolB : List Image) (dInit : ℕ → ℕ → Draw) (dFrames : ℕ → FrameDraw)
    (t : ℕ) : Option Canvas :=
  match build_initial fuel tw th ratio poolA dInit (tile_positions W H tw th ratio)
      0 black_canvas with
  | none => none
  | some c0 =>
    run_frames fuel tw th totalFrames ratio startR endR poolA poolB
      (tile_positions W H tw th ratio) dFrames c0 t

/-- a slot descriptor of the beat-synchronized generator
(`mittag_video_part_2.py` line 100): coordinates only, no zone tag. -/
structure SlotXY where
  x : ℕ
  y : ℕ
deriving DecidableEq

/-- the slot list built by `create_tiled_transition_video`
(`mittag_video_part_2.py` lines 95-100): same truncated grid, no zone. -/
def tile_positions_xy (W H tw th : ℕ) : List SlotXY :=
  (pyRange H th).flatMap fun y =>
    (pyRange W tw).flatMap fun x =>
      if y + th ≤ H ∧ x + tw ≤ W then [⟨x, y⟩] else []

/-- `cv2.resize(img, size)` (`mittag_video_part_2.py` line 65), modelled as a
nearest-style scaling: the result has exactly the tile dimensions and every
output pixel is taken from the whole input image. -/
def resize_to (tw th : ℕ) (img : Image) : Image :=
  ⟨th, tw, fun i j => img.pix (i * img.h / th) (j * img.w / tw)⟩

/-- `load_and_resize_images` (`mittag_video_part_2.py` lines 48-69): every
loaded image is resized to the tile size. -/
def load_and_resize_images (tw th : ℕ) (pool : List Image) : List Image :=
  pool.map (resize_to tw th)

/-- fallback image used to make `random.choice` total in the model; the code
only invokes the choice on non-empty lists. -/
def default_image : Image := ⟨0, 0, fun _ _ => (0, 0, 0)⟩

/-- `random.choice(l)` with its index draw explicit. -/
def py_choice {α : Type} (d : α) (l : List α) (pick : ℕ) : α :=
  l.getD (pick % l.length) d

/-- random draws consumed on one beat frame of `create_tiled_transition_video`
(`mittag_video_part_2.py` lines 115-142). -/
structure BeatDraw where
  countU : ℚ
  slotPick : ℕ → ℕ
  tilePick : ℕ → ℕ

/-- the canvas writes of the initial grid fill (`mittag_video_part_2.py`
lines 95-103): one write per slot, each a `random.choice` from the resized
pool. -/
def mittag_initial_writes (W H tw th : ℕ) (resized : List Image)
    (picks : ℕ → ℕ) : List (SlotXY × Image) :=
  (tile_positions_xy W H tw th).enum.map fun p =>
    (p.2, py_choice default_image resized (picks p.1))

/-- the canvas writes of one beat (`mittag_video_part_2.py` lines 129-142):
`cnt` iterations, each skipped when the slot list is empty, else a
`random.choice` slot receives a `random.choice` image from the resized
pool. -/
def mittag_beat_writes (slots : List SlotXY) (resized : List Image) (d : BeatDraw)
    (cnt : ℕ) : List (SlotXY × Image) :=
  (List.range cnt).flatMap fun k =>
    if slots = [] then []
    else
      [(py_choice ⟨0, 0⟩ slots (d.slotPick k),
        py_choice default_image resized (d.tilePick k))]

/-- all canvas writes of a `create_tiled_transition_video` run
(`mittag_video_part_2.py` lines 90-146): the initial grid writes followed,
on each beat frame, by that beat's replacement writes with the scheduler's
stochastically rounded count. -/
def mittag_writes (W H tw th totalFrames : ℕ) (startR endR : ℚ) (raw : List Image)
    (isBeat : ℕ → Bool) (initPicks : ℕ → ℕ) (beatDraws : ℕ → BeatDraw) :
    List (SlotXY × Image) :=
  mittag_initial_writes W H tw th (load_and_resize_images tw th raw) initPicks ++
    (List.range totalFrames).flatMap fun t =>
      if isBeat t then
        mittag_beat_writes (tile_positions_xy W H tw th)
          (load_and_resize_images tw th raw) (beatDraws t)
          ((tiles_to_replace
              (current_rate startR endR ((t : ℚ) / (totalFrames : ℚ)))
              (beatDraws t).countU).toNat)
      else []

/-- a concrete 3x3 source image used by the witnesses. -/
def sample_image : Image := ⟨3, 3, fun _ _ => (9, 9, 9)⟩

/-- constant draw record used by the determinism witness. -/
def const_draw : Draw := ⟨0, 0, 0⟩

/-- constant step-draw record used by the determinism witness. -/
def const_step_draw : StepDraw := ⟨0, 0, fun _ => const_draw⟩

/-- constant frame-draw record used by the determinism witness. -/
def const_frame_draw : FrameDraw := ⟨0, fun _ => const_step_draw⟩

/-- constant initial-grid draw stream used by the determinism witness. -/
def const_init_draws : ℕ → ℕ → Draw := fun _ _ => const_draw

/-- constant frame draw stream used by the determinism witness. -/
def const_frame_draws : ℕ → FrameDraw := fun _ => const_frame_draw

/-- truncation of an integer-valued rational is that integer. -/
theorem ratInt_coe_int (n : ℤ) : ratInt ((n : ℚ)) = n := by
  unfold ratInt
  by_cases h : 0 ≤ ((n : ℤ) : ℚ)
  · rw [if_pos h, Int.floor_intCast]
  · rw [if_neg h, Int.ceil_intCast]

/-- the vertical crop-origin range of `get_random_tile` is nonnegative at
its lower end and keeps a whole tile inside the image at its upper end,
whenever the image is at least a tile high and the ratio lies in `[0, 1]`. -/
theorem sample_range_bounds (img : Image) (ratio : ℚ) (th : ℕ) (isSky : Bool)
    (h0 : 0 ≤ ratio) (h1 : ratio ≤ 1) (hth : th ≤ img.h) :
    0 ≤ (sample_range img ratio th isSky).1
    ∧ (sample_range img ratio th isSky).2 ≤ (img.h : ℤ) - (th : ℤ) := by
  have hmn : (0 : ℚ) ≤ (img.h : ℚ) * ratio := mul_nonneg (Nat.cast_nonneg _) h0
  have hshy0 : 0 ≤ source_horizon_y img.h ratio := by
    unfold source_horizon_y ratInt
    rw [if_pos hmn]
    exact Int.floor_nonneg.mpr hmn
  have hshyh : source_horizon_y img.h ratio ≤ (img.h : ℤ) := by
    unfold source_horizon_y ratInt
    rw [if_pos hmn]
    have hle : ((img.h : ℚ)) * ratio ≤ (((img.h : ℤ) : ℚ)) := by
      push_cast
      calc (img.h : ℚ) * ratio ≤ (img.h : ℚ) * 1 :=
            mul_le_mul_of_nonneg_left h1 (Nat.cast_nonneg _)
        _ = (img.h : ℚ) := mul_one _
    calc ⌊(img.h : ℚ) * ratio⌋ ≤ ⌊(((img.h : ℤ) : ℚ))⌋ := Int.floor_le_floor hle
      _ = (img.h : ℤ) := Int.floor_intCast _
  have hth' : (th : ℤ) ≤ (img.h : ℤ) := by exact_mod_cast hth
  cases isSky with
  | true =>
    have hr : sample_range img ratio th true
        = (0, max 0 (source_horizon_y img.h ratio - (th : ℤ))) := by
      unfold sample_range
      rw [if_pos rfl]
    rw [hr]
    exact ⟨le_refl 0, max_le (by omega) (by omega)⟩
  | false =>
    have hr : sample_range img ratio th false
        = (min (source_horizon_y img.h ratio) ((img.h : ℤ) - (th : ℤ)),
           (img.h : ℤ) - (th : ℤ)) := by
      unfold sample_range
      rw [if_neg (by simp)]
    rw [hr]
    exact ⟨le_min hshy0 (by omega), by omega⟩

/-- a crop whose origin leaves a whole tile inside the image has exactly the
requested dimensions. -/
theorem crop_exact (img : Image) (ry rx th tw : ℕ)
    (hy : ry + th ≤ img.h) (hx : rx + tw ≤ img.w) :
    (crop img ry rx th tw).height = th ∧ (crop img ry rx th tw).width = tw := by
  unfold crop
  constructor
  · simp only
    omega
  · simp only
    omega

/-- on the non-retry path the sampled crop origin of `get_random_tile` is in
bounds: `0 ≤ random_x ≤ w - tw` and `0 ≤ random_y ≤ h - th`. -/
theorem sample_origin_bounds (img : Image) (ratio : ℚ) (tw th : ℕ) (isSky : Bool)
    (ux uy : ℕ) (h0 : 0 ≤ ratio) (h1 : ratio ≤ 1) (hh : th ≤ img.h) (hw : tw ≤ img.w)
    (hc : ¬ (sample_range img ratio th isSky).2 ≤ (sample_range img ratio th isSky).1) :
    ((sample_range img ratio th isSky).1
        + (uy : ℤ) % ((sample_range img ratio th isSky).2
            - (sample_range img ratio th isSky).1 + 1)).toNat + th ≤ img.h
    ∧ ux % (img.w - tw + 1) + tw ≤ img.w := by
  obtain ⟨hlo0, hhi⟩ := sample_range_bounds img ratio th isSky h0 h1 hh
  have hlt : (sample_range img ratio th isSky).1 < (sample_range img ratio th isSky).2 :=
    not_le.mp hc
  have hk : (0 : ℤ) < (sample_range img ratio th isSky).2
      - (sample_range img ratio th isSky).1 + 1 := by omega
  have hmod0 : 0 ≤ (uy : ℤ) % ((sample_range img ratio th isSky).2
      - (sample_range img ratio th isSky).1 + 1) := Int.emod_nonneg _ (ne_of_gt hk)
  have hmodlt : (uy : ℤ) % ((sample_range img ratio th isSky).2
      - (sample_range img ratio th isSky).1 + 1)
      < (sample_range img ratio th isSky).2 - (sample_range img ratio th isSky).1 + 1 :=
    Int.emod_lt_of_pos _ hk
  constructor
  · omega
  · have hxlt : ux % (img.w - tw + 1) < img.w - tw + 1 :=
      Nat.mod_lt _ (Nat.succ_pos _)
    omega

/-- theorem C7: whenever the region sampler returns on a pool of images at
least a tile in both dimensions, the returned pixel block has exactly the
requested tile dimensions, and (for a non-empty pool) it is a crop of a pool
image at an origin leaving the whole tile inside the image. -/
theorem region_sampler_shape (tw th : ℕ) (ratio : ℚ) (pool : List Image) (isSky : Bool)
    (draws : ℕ → Draw) (i fuel : ℕ) (t : Tile)
    (h0 : 0 ≤ ratio) (h1 : ratio ≤ 1)
    (hpool : ∀ img ∈ pool, th ≤ img.h ∧ tw ≤ img.w)
    (ht : get_random_tile tw th ratio pool isSky draws i fuel = some t) :
    t.height = th ∧ t.width = tw
    ∧ (pool ≠ [] → ∃ img ∈ pool, ∃ ry rx : ℕ,
        ry + th ≤ img.h ∧ rx + tw ≤ img.w ∧ t = crop img ry rx th tw) := by
  revert ht
  induction fuel generalizing i t with
  | zero =>
    intro ht
    exact absurd ht (by rw [get_random_tile]; exact Option.noConfusion)
  | succ n ih =>
    intro ht
    cases pool with
    | nil =>
      rw [get_random_tile] at ht
      have hbk : blackTile tw th = t := Option.some.inj ht
      rw [← hbk]
      exact ⟨rfl, rfl, fun hne => absurd rfl hne⟩
    | cons a rest =>
      rw [get_random_tile] at ht
      simp only at ht
      split at ht
      · exact ih (i + 1) t ht
      · rename_i hc
        have hcrop := Option.some.inj ht
        have hmem : (a :: rest).get
            ⟨(draws i).pick % (a :: rest).length, Nat.mod_lt _ (Nat.succ_pos _)⟩
            ∈ a :: rest := List.get_mem _ _ _
        obtain ⟨hh, hw⟩ := hpool _ hmem
        obtain ⟨hoy, hox⟩ :=
          sample_origin_bounds _ ratio tw th isSky (draws i).ux (draws i).uy
            h0 h1 hh hw hc
        obtain ⟨hht, hwt⟩ := crop_exact _ _ _ th tw hoy hox
        rw [← hcrop]
        exact ⟨hht, hwt, fun _ => ⟨_, hmem, _, _, hoy, hox, rfl⟩⟩

/-- counting helper: among `range c`, exactly `m` elements are below `m`,
provided `m ≤ c`. -/
theorem countP_range_lt (c m : ℕ) (h : m ≤ c) :
    (List.range c).countP (fun k => decide (k < m)) = m := by
  induction c with
  | zero =>
    have : m = 0 := Nat.le_zero.mp h
    simp [this]
  | succ n ih =>
    by_cases hm : m ≤ n
    · rw [List.range_succ, List.countP_append, ih hm]
      have : (fun k => decide (k < m)) n = false := by
        simp
        omega
      simp [List.countP_cons, this]
    · have hmeq : m = n + 1 := by omega
      subst hmeq
      rw [List.countP_eq_length.mpr ?_, List.length_range]
      intro a ha
      simp only [List.mem_range] at ha
      simp [ha]

/-- counting helper: the loop over `range(0, W, tw)` keeps exactly `W / tw`
origins whose extent fits, when `0 < tw`. -/
theorem countP_pyRange_fits (W tw : ℕ) (htw : 0 < tw) :
    (pyRange W tw).countP (fun x => decide (x + tw ≤ W)) = W / tw := by
  unfold pyRange
  rw [List.countP_map]
  have hcong : ∀ k ∈ List.range ((W + tw - 1) / tw),
      ((fun x => decide (x + tw ≤ W)) ∘ (· * tw)) k = true ↔
        (fun k => decide (k < W / tw)) k = true := by
    intro k _
    simp only [Function.comp_apply, decide_eq_true_eq]
    constructor
    · intro hk
      have : (k + 1) * tw ≤ W := by
        rw [Nat.add_mul, Nat.one_mul]
        exact hk
      have := (Nat.le_div_iff_mul_le htw).mpr this
      omega
    · intro hk
      have : k + 1 ≤ W / tw := hk
      have := (Nat.le_div_iff_mul_le htw).mp this
      rw [Nat.add_mul, Nat.one_mul] at this
      exact this
  rw [List.countP_congr hcong]
  apply countP_range_lt
  apply Nat.div_le_div_right
  omega

/-- length helper: a flatMap producing a singleton exactly on a decidable
condition has as many elements as the condition has witnesses. -/
theorem length_flatMap_ite {β : Type} (l : List ℕ) (P : ℕ → Prop) [DecidablePred P]
    (g : ℕ → β) :
    (l.flatMap fun x => if P x then [g x] else []).length
      = l.countP fun x => decide (P x) := by
  induction l with
  | nil => rfl
  | cons a l ih =>
    rw [List.flatMap_cons, List.length_append, ih, List.countP_cons]
    by_cases h : P a
    · simp [h]
      omega
    · simp [h]

/-- sum helper: summing a constant over the witnesses of a condition. -/
theorem sum_map_ite (l : List ℕ) (P : ℕ → Prop) [DecidablePred P] (A : ℕ) :
    (l.map fun y => if P y then A else 0).sum
      = (l.countP fun y => decide (P y)) * A := by
  induction l with
  | nil => simp
  | cons a l ih =>
    rw [List.map_cons, List.sum_cons, ih, List.countP_cons]
    by_cases h : P a <;> simp [h, Nat.add_mul, Nat.add_comm]

/-- characterization of grid membership: a slot of `tile_positions` has a
multiple-of-tile-size origin, fits the canvas, and carries the zone tag the
loop computed for it. -/
theorem mem_tile_positions {W H tw th : ℕ} {ratio : ℚ} {s : Slot}
    (hs : s ∈ tile_positions W H tw th ratio) :
    (∃ i, s.x = tw * i) ∧ (∃ j, s.y = th * j) ∧ s.x + tw ≤ W ∧ s.y + th ≤ H
    ∧ s.is_sky = decide (((s.y : ℤ) + (th : ℤ)) < output_horizon_y H ratio) := by
  unfold tile_positions at hs
  rw [List.mem_flatMap] at hs
  obtain ⟨y, hy, hs⟩ := hs
  rw [List.mem_flatMap] at hs
  obtain ⟨x, hx, hs⟩ := hs
  by_cases hc : y + th ≤ H ∧ x + tw ≤ W
  · rw [if_pos hc] at hs
    simp only [List.mem_singleton] at hs
    subst hs
    unfold pyRange at hx hy
    rw [List.mem_map] at hx hy
    obtain ⟨i, _, hx⟩ := hx
    obtain ⟨j, _, hy⟩ := hy
    exact ⟨⟨i, by rw [← hx]; exact Nat.mul_comm i tw⟩,
           ⟨j, by rw [← hy]; exact Nat.mul_comm j th⟩, hc.2, hc.1, rfl⟩
  · rw [if_neg hc] at hs
    simp at hs

/-- theorem C6: the grid builder yields exactly
`(canvasHeight / tileHeight) * (canvasWidth / tileWidth)` slots, each origin a
multiple of the tile size, every slot extent fully inside the canvas. -/
theorem grid_builder_spec (W H tw th : ℕ) (ratio : ℚ) (htw : 0 < tw) (hth : 0 < th) :
    (tile_positions W H tw th ratio).length = H / th * (W / tw)
    ∧ ∀ s ∈ tile_positions W H tw th ratio,
        (∃ i, s.x = tw * i) ∧ (∃ j, s.y = th * j) ∧ s.x + tw ≤ W ∧ s.y + th ≤ H := by
  constructor
  · unfold tile_positions
    rw [List.length_flatMap]
    simp only [Function.comp_def]
    have hmap : ((pyRange H th).map fun y =>
        ((pyRange W tw).flatMap fun x =>
          if y + th ≤ H ∧ x + tw ≤ W then
            [Slot.mk x y (decide (((y : ℤ) + (th : ℤ)) < output_horizon_y H ratio))]
          else []).length)
        = (pyRange H th).map fun y => if y + th ≤ H then W / tw else 0 := by
      apply List.map_congr_left
      intro y _
      rw [length_flatMap_ite]
      by_cases hy : y + th ≤ H
      · rw [if_pos hy]
        rw [List.countP_congr (q := fun x => decide (x + tw ≤ W)) ?_]
        · exact countP_pyRange_fits W tw htw
        · intro x _
          simp [hy]
      · rw [if_neg hy]
        rw [List.countP_eq_zero.mpr ?_]
        intro x _
        simp [hy]
    rw [hmap, sum_map_ite, countP_pyRange_fits H th hth]
  · intro s hs
    obtain ⟨h1, h2, h3, h4, _⟩ := mem_tile_positions hs
    exact ⟨h1, h2, h3, h4⟩

/-- theorem C5: a grid slot is tagged sky exactly when
`y + tileHeight < floor(canvasHeight * horizonRatio)`, and any slot whose
vertical extent straddles the horizon row is tagged field. -/
theorem zone_assignment_spec (W H tw th : ℕ) (ratio : ℚ) (hratio : 0 ≤ ratio) :
    ∀ s ∈ tile_positions W H tw th ratio,
      (s.is_sky = true ↔ (s.y : ℤ) + (th : ℤ) < ⌊(H : ℚ) * ratio⌋)
      ∧ ((s.y : ℤ) ≤ ⌊(H : ℚ) * ratio⌋ → ⌊(H : ℚ) * ratio⌋ ≤ (s.y : ℤ) + (th : ℤ) →
          s.is_sky = false) := by
  intro s hs
  obtain ⟨_, _, _, _, hsky⟩ := mem_tile_positions hs
  have hz : output_horizon_y H ratio = ⌊(H : ℚ) * ratio⌋ := by
    unfold output_horizon_y ratInt
    exact if_pos (mul_nonneg (Nat.cast_nonneg H) hratio)
  rw [hz] at hsky
  constructor
  · rw [hsky]
    exact decide_eq_true_iff
  · intro _ h2
    rw [hsky]
    simp only [decide_eq_false_iff_not]
    omega

/-- a chosen element of a non-empty list is a member of it. -/
theorem py_choice_mem {α : Type} (d : α) (l : List α) (k : ℕ) (hl : l ≠ []) :
    py_choice d l k ∈ l := by
  unfold py_choice
  have hlen : 0 < l.length := List.length_pos.mpr hl
  have hk : k % l.length < l.length := Nat.mod_lt _ hlen
  rw [List.getD_eq_getElem l d hk]
  exact List.getElem_mem hk

/-- theorem C10: in the beat-synchronized single-pool generator every tile
ever written to the canvas — initial grid and beat replacements alike — is a
whole source image resized to the tile size (a member of the resized pool),
never a zone crop; its slot descriptors (`SlotXY`) carry coordinates only. -/
theorem mittag_tiles_resized (W H tw th totalFrames : ℕ) (startR endR : ℚ)
    (raw : List Image) (isBeat : ℕ → Bool) (initPicks : ℕ → ℕ)
    (beatDraws : ℕ → BeatDraw) (hraw : raw ≠ []) (wr : SlotXY × Image)
    (hwr : wr ∈ mittag_writes W H tw th totalFrames startR endR raw isBeat
        initPicks beatDraws) :
    (∃ orig ∈ raw, wr.2 = resize_to tw th orig) ∧ wr.2.h = th ∧ wr.2.w = tw := by
  have hres : load_and_resize_images tw th raw ≠ [] := by
    unfold load_and_resize_images
    simp [hraw]
  have key : ∀ img, img ∈ load_and_resize_images tw th raw →
      (∃ orig ∈ raw, img = resize_to tw th orig) ∧ img.h = th ∧ img.w = tw := by
    intro img hm
    unfold load_and_resize_images at hm
    rw [List.mem_map] at hm
    obtain ⟨orig, ho, heq⟩ := hm
    rw [← heq]
    exact ⟨⟨orig, ho, rfl⟩, rfl, rfl⟩
  unfold mittag_writes at hwr
  rw [List.mem_append] at hwr
  cases hwr with
  | inl h1 =>
    unfold mittag_initial_writes at h1
    rw [List.mem_map] at h1
    obtain ⟨p, _, hp⟩ := h1
    rw [← hp]
    exact key _ (py_choice_mem _ _ _ hres)
  | inr h2 =>
    rw [List.mem_flatMap] at h2
    obtain ⟨tnum, _, h2⟩ := h2
    by_cases hb : isBeat tnum = true
    · rw [if_pos hb] at h2
      unfold mittag_beat_writes at h2
      rw [List.mem_flatMap] at h2
      obtain ⟨k, _, h2⟩ := h2
      by_cases hsl : tile_positions_xy W H tw th = []
      · rw [if_pos hsl] at h2
        simp at h2
      · rw [if_neg hsl] at h2
        simp only [List.mem_singleton] at h2
        rw [h2]
        exact key _ (py_choice_mem _ _ _ hres)
    · rw [if_neg hb] at h2
      simp at h2

/-- theorem C4: an empty pool yields the all-black tile of exactly the
requested tile size, immediately (one step of fuel), for every zone — the
degrade-gracefully policy of `animated_mosaic.py` lines 44-46. -/
theorem empty_pool_black_tile (tw th : ℕ) (ratio : ℚ) (isSky : Bool)
    (draws : ℕ → Draw) (i fuel : ℕ) :
    get_random_tile tw th ratio [] isSky draws i (fuel + 1) = some (blackTile tw th)
    ∧ (blackTile tw th).height = th ∧ (blackTile tw th).width = tw
    ∧ ∀ r c, (blackTile tw th).pix r c = (0, 0, 0) := by
  refine ⟨?_, rfl, rfl, fun r c => rfl⟩
  simp [get_random_tile]

/-- theorem C8: with an empty slot list, a replacement step of any count is a
no-op — it neither fails nor changes any canvas pixel. -/
theorem apply_step_empty_slots (fuel tw th : ℕ) (ratio bias : ℚ)
    (poolA poolB : List Image) (draws : ℕ → StepDraw) (count : ℕ) (canvas : Canvas) :
    apply_step fuel tw th ratio bias poolA poolB [] draws count canvas = some canvas := by
  induction count with
  | zero => rfl
  | succ n ih =>
    rw [apply_step, dif_pos rfl]
    exact ih

/-- theorem C9: the engine is a pure function of its configuration, pools and
random draw streams — two runs whose draw streams agree everywhere produce
identical canvases at every time step. -/
theorem run_deterministic (fuel tw th totalFrames W H : ℕ) (ratio startR endR : ℚ)
    (poolA poolB : List Image) (d1i d2i : ℕ → ℕ → Draw) (d1f d2f : ℕ → FrameDraw)
    (hinit : ∀ n k, d1i n k = d2i n k) (hframes : ∀ n, d1f n = d2f n) (t : ℕ) :
    run_mosaic fuel tw th totalFrames W H ratio startR endR poolA poolB d1i d1f t
      = run_mosaic fuel tw th totalFrames W H ratio startR endR poolA poolB d2i d2f t := by
  have h1 : d1i = d2i := funext fun n => funext fun k => hinit n k
  have h2 : d1f = d2f := funext hframes
  rw [h1, h2]

/-- theorem C1 (against the claim): for a slot crossing the canvas horizon
(concretely: canvas height 1600, ratio 3/5, canvas horizon 960, tile 100x100,
slot `y = 900`, source height 1000), the crossing branch's single-point range
`[540, 540]` always trips the `min >= max` validity fallback, so the code
samples `random_y` from the full range `[0, 900]` (two draws give the
distinct origins 0 and 17) instead of the deterministic origin
`sourceHorizonY - int(tileHeight * (outputHorizonY - y) / tileHeight) = 540`
the claim requires. -/
theorem crossing_branch_overridden :
    output_horizon_y 1600 (3/5) = 960
    ∧ consistent_sample_range 1000 (3/5) 100 900 960 = (0, 900)
    ∧ source_horizon_y 1000 (3/5)
        - ratInt ((((100 : ℕ) : ℚ)) * ((((960 : ℤ) : ℚ) - ((900 : ℕ) : ℚ)) / ((100 : ℕ) : ℚ)))
      = 540
    ∧ randint_model 0 900 0 = 0 ∧ randint_model 0 900 17 = 17 := by
  have hza : (((1600 : ℕ) : ℚ)) * (3/5) = ((960 : ℤ) : ℚ) := by norm_num
  have hz : output_horizon_y 1600 (3/5) = 960 := by
    unfold output_horizon_y
    rw [hza, ratInt_coe_int]
  have hsa : (((1000 : ℕ) : ℚ)) * (3/5) = ((600 : ℤ) : ℚ) := by norm_num
  have hs : source_horizon_y 1000 (3/5) = 600 := by
    unfold source_horizon_y
    rw [hsa, ratInt_coe_int]
  have hfa : (((100 : ℕ) : ℚ)) * ((((960 : ℤ) : ℚ) - ((900 : ℕ) : ℚ)) / ((100 : ℕ) : ℚ))
      = ((60 : ℤ) : ℚ) := by norm_num
  have hf : ratInt ((((100 : ℕ) : ℚ)) * ((((960 : ℤ) : ℚ) - ((900 : ℕ) : ℚ)) / ((100 : ℕ) : ℚ)))
      = 60 := by rw [hfa, ratInt_coe_int]
  refine ⟨hz, ?_, ?_, ?_, ?_⟩
  · unfold consistent_sample_range
    rw [hs, hf]
    norm_num
  · rw [hs, hf]
    decide
  · unfold randint_model; decide
  · unfold randint_model; decide

/-- theorem C2 (against the claim): with a pool whose sole image is exactly
tile-sized (50x50, horizon ratio 3/5), the sky sampling range is empty, and
`get_random_tile` keeps recursing for every retry budget: the fuel-indexed
model returns `none` at every fuel, i.e. the code has no maximum attempt
count and no explicit failure path. -/
theorem region_retry_unbounded (draws : ℕ → Draw) (i fuel : ℕ) :
    get_random_tile 50 50 (3/5) [⟨50, 50, fun _ _ => (0, 0, 0)⟩] true draws i fuel
      = none := by
  have hshy : source_horizon_y 50 (3/5) = 30 := by
    unfold source_horizon_y
    have : (((50 : ℕ) : ℚ)) * (3/5) = ((30 : ℤ) : ℚ) := by norm_num
    rw [this, ratInt_coe_int]
  have hsr : sample_range ⟨50, 50, fun _ _ => (0, 0, 0)⟩ (3/5) 50 true = (0, 0) := by
    unfold sample_range
    rw [if_pos rfl, hshy]
    norm_num
  induction fuel generalizing i with
  | zero => rfl
  | succ n ih =>
    rw [get_random_tile]
    have hget : ∀ hlt, ([(⟨50, 50, fun _ _ => (0, 0, 0)⟩ : Image)].get ⟨0, hlt⟩)
        = (⟨50, 50, fun _ _ => (0, 0, 0)⟩ : Image) := fun _ => rfl
    simp only [List.length_cons, List.length_nil, Nat.zero_add, Nat.mod_one, hget, hsr]
    rw [if_pos (le_refl (0 : ℤ))]
    exact ih (i + 1)

/-- theorem C3: for every rate `r ≥ 0` the scheduler's count is
`⌊r⌋ + 1` exactly when the uniform draw `u` is below the fractional part and
`⌊r⌋` otherwise, hence always one of those two values; its expected value
equals `r`; and for `startRate = 0`, `endRate = 10`, `progress = 1/2` the
rate is `5` and the expected count is `5`. -/
theorem replacement_count_spec (r u : ℚ) (hr : 0 ≤ r) :
    tiles_to_replace r u = (if u < r - (⌊r⌋ : ℚ) then ⌊r⌋ + 1 else ⌊r⌋)
    ∧ (tiles_to_replace r u = ⌊r⌋ ∨ tiles_to_replace r u = ⌊r⌋ + 1)
    ∧ expected_replacements r = r
    ∧ current_rate 0 10 (1/2) = 5
    ∧ expected_replacements (current_rate 0 10 (1/2)) = 5 := by
  have hri : ratInt r = ⌊r⌋ := if_pos hr
  have h1 : tiles_to_replace r u = (if u < r - (⌊r⌋ : ℚ) then ⌊r⌋ + 1 else ⌊r⌋) := by
    unfold tiles_to_replace
    rw [hri]
    by_cases h : u < r - (⌊r⌋ : ℚ)
    · rw [if_pos h, if_pos h]
    · rw [if_neg h, if_neg h, add_zero]
  have h2 : expected_replacements r = r := by
    unfold expected_replacements
    rw [hri]; ring
  have h3 : current_rate 0 10 (1/2) = 5 := by
    unfold current_rate; norm_num
  refine ⟨h1, ?_, h2, h3, ?_⟩
  · rw [h1]
    by_cases h : u < r - (⌊r⌋ : ℚ)
    · right; rw [if_pos h]
    · left; rw [if_neg h]
  · rw [h3]
    have h5 : ratInt 5 = 5 := by
      unfold ratInt
      rw [if_pos (by norm_num)]
      have : (5 : ℚ) = ((5 : ℤ) : ℚ) := by norm_num
      rw [this, Int.floor_intCast]
    unfold expected_replacements
    rw [h5]; norm_num

/-- witness for theorem C3 at `r = 5/2`, `u = 1/4`. -/
theorem replacement_count_spec_witness :
    tiles_to_replace (5/2) (1/4)
        = (if (1/4 : ℚ) < 5/2 - ((⌊(5/2 : ℚ)⌋ : ℤ) : ℚ) then ⌊(5/2 : ℚ)⌋ + 1 else ⌊(5/2 : ℚ)⌋)
    ∧ (tiles_to_replace (5/2) (1/4) = ⌊(5/2 : ℚ)⌋
        ∨ tiles_to_replace (5/2) (1/4) = ⌊(5/2 : ℚ)⌋ + 1)
    ∧ expected_replacements (5/2) = 5/2
    ∧ current_rate 0 10 (1/2) = 5
    ∧ expected_replacements (current_rate 0 10 (1/2)) = 5 :=
  replacement_count_spec (5/2) (1/4) (by norm_num)

/-- witness for theorem C6 on a 2x2 canvas with 1x1 tiles. -/
theorem grid_builder_spec_witness :
    (tile_positions 2 2 1 1 1).length = 2 / 1 * (2 / 1) :=
  (grid_builder_spec 2 2 1 1 1 (by norm_num) (by norm_num)).1

/-- witness for theorem C5: on a 2x2 canvas with 1x1 tiles and ratio 1 the
slot at `y = 1` straddles the horizon row 2 and is field. -/
theorem zone_assignment_spec_witness :
    (Slot.mk 0 1 false).is_sky = true
      ↔ ((Slot.mk 0 1 false).y : ℤ) + ((1 : ℕ) : ℤ) < ⌊((2 : ℕ) : ℚ) * (1 : ℚ)⌋ := by
  have hz2 : output_horizon_y 2 1 = 2 := by
    unfold output_horizon_y
    have h : ((2 : ℕ) : ℚ) * 1 = ((2 : ℤ) : ℚ) := by norm_num
    rw [h, ratInt_coe_int]
  have hlist : tile_positions 2 2 1 1 1
      = [⟨0, 0, true⟩, ⟨1, 0, true⟩, ⟨0, 1, false⟩, ⟨1, 1, false⟩] := by
    unfold tile_positions
    simp only [hz2]
    rfl
  have hm : Slot.mk 0 1 false ∈ tile_positions 2 2 1 1 1 := by
    rw [hlist]
    decide
  exact (zone_assignment_spec 2 2 1 1 1 (by norm_num) (Slot.mk 0 1 false) hm).1

/-- witness for theorem C7: sampling a field tile of size 2x2 from the 3x3
image with ratio 0 and zero draws returns the in-bounds crop at the origin. -/
theorem region_sampler_shape_witness :
    (crop sample_image 0 0 2 2).height = 2 ∧ (crop sample_image 0 0 2 2).width = 2 := by
  have hshy : source_horizon_y sample_image.h 0 = 0 := by
    unfold source_horizon_y
    have h : ((sample_image.h : ℕ) : ℚ) * 0 = ((0 : ℤ) : ℚ) := by norm_num
    rw [h, ratInt_coe_int]
  have hsr : sample_range sample_image 0 2 false = (0, 1) := by
    unfold sample_range
    rw [if_neg (by simp), hshy]
    decide
  have hget : ∀ hlt, ([sample_image].get ⟨0, hlt⟩) = sample_image := fun _ => rfl
  have ht : get_random_tile 2 2 0 [sample_image] false (fun _ => ⟨0, 0, 0⟩) 0 1
      = some (crop sample_image 0 0 2 2) := by
    rw [get_random_tile]
    simp only [List.length_cons, List.length_nil, Nat.zero_add, Nat.mod_one, hget, hsr]
    rw [if_neg (by decide)]
    rfl
  have hpool : ∀ img ∈ [sample_image], 2 ≤ img.h ∧ 2 ≤ img.w := by
    intro img hm
    rw [List.mem_singleton] at hm
    subst hm
    exact ⟨by decide, by decide⟩
  have h := region_sampler_shape 2 2 0 [sample_image] false (fun _ => ⟨0, 0, 0⟩) 0 1
    (crop sample_image 0 0 2 2) (by norm_num) (by norm_num) hpool ht
  exact ⟨h.1, h.2.1⟩

/-- witness for theorem C9 on a concrete configuration with equal streams. -/
theorem run_deterministic_witness :
    run_mosaic 1 1 1 1 1 1 1 0 1 [] [] const_init_draws const_frame_draws 1
      = run_mosaic 1 1 1 1 1 1 1 0 1 [] [] const_init_draws const_frame_draws 1 :=
  run_deterministic 1 1 1 1 1 1 1 0 1 [] [] const_init_draws const_init_draws
    const_frame_draws const_frame_draws (fun _ _ => rfl) (fun _ => rfl) 1

/-- witness for theorem C10 on a 1x1 canvas, one source image, no beats: the
single initial write is the resized whole image at the tile size. -/
theorem mittag_tiles_resized_witness :
    ((SlotXY.mk 0 0, resize_to 1 1 sample_image)).2.h = 1
    ∧ ((SlotXY.mk 0 0, resize_to 1 1 sample_image)).2.w = 1 := by
  have hwr : (SlotXY.mk 0 0, resize_to 1 1 sample_image)
      ∈ mittag_writes 1 1 1 1 0 0 0 [sample_image] (fun _ => false) (fun _ => 0)
          (fun _ => ⟨0, fun _ => 0, fun _ => 0⟩) := by
    have hl : mittag_writes 1 1 1 1 0 0 0 [sample_image] (fun _ => false) (fun _ => 0)
        (fun _ => ⟨0, fun _ => 0, fun _ => 0⟩)
        = [(SlotXY.mk 0 0, resize_to 1 1 sample_image)] := rfl
    rw [hl]
    exact List.mem_singleton.mpr rfl
  have h := mittag_tiles_resized 1 1 1 1 0 0 0 [sample_image] (fun _ => false)
    (fun _ => 0) (fun _ => ⟨0, fun _ => 0, fun _ => 0⟩) (by simp)
    (SlotXY.mk 0 0, resize_to 1 1 sample_image) hwr
  exact h.2
